import Mathlib

/-! Verification development for the index_tracking repository.

The numeric computations of the source (Python floats) are modelled over `ℚ`.
Measurement dictionaries (Qiskit result counts) are modelled as association
lists `List (List Char × ℚ)` in insertion order; the Python `int(k, 2)`
decoding of a key is modelled by `parseBin`, which implements the base-2
numeral grammar of `int()` — surrounding whitespace, optional sign,
optional `0b`/`0B` prefix, digits with grouping underscores — and returns
`none` where Python raises `ValueError`.
A Python function that can raise is modelled as returning `Option`.
-/

namespace IndexTracking

/-- Bit `i` of the natural number `s`: the Python expression `(s >> i) & 1`. -/
def bitOf (s i : ℕ) : ℕ := (s >>> i) % 2

/-- Number of set bits among the low `N` bits of `s`: the `ns`/`nbits`
accumulation loops (`for i in range(N): ns += (s >> i) & 1`). -/
def popcountN (s N : ℕ) : ℕ := ∑ i ∈ Finset.range N, bitOf s i

/-- Per-state tracking error accumulated by both loops of
`compute_tracking_error.py` (lines 46-50 and 100-104):
`terrs += (Σ[i,i] - 2*g[i]) * bit_i` plus
`terrs += 2*Σ[i,j] * bit_i * bit_j` for `j` in `range(i+1, N)`. -/
def stateTerr (N : ℕ) (Sm : ℕ → ℕ → ℚ) (g : ℕ → ℚ) (s : ℕ) : ℚ :=
  ∑ i ∈ Finset.range N,
    ((Sm i i - 2 * g i) * (bitOf s i : ℚ)
      + ∑ j ∈ Finset.Ico (i + 1) N, 2 * Sm i j * (bitOf s i : ℚ) * (bitOf s j : ℚ))

/-- ASCII whitespace stripped by Python's `int()` around a numeral:
exactly `0x09`-`0x0D` and `0x20` (`int()` does not strip the
`str.isspace()` separators `0x1C`-`0x1F`). -/
def isPySpace (c : Char) : Bool :=
  c == ' ' || c == '\t' || c == '\n' || c == '\x0b' || c == '\x0c' || c == '\r'

/-- ASCII characters that can appear somewhere in a string accepted by
Python's `int(k, 2)`: binary digits, grouping underscore, a sign, the
`0b`/`0B` prefix letters, and the whitespace `int()` strips.  Any ASCII
character outside this set makes `int(k, 2)` raise `ValueError` wherever it
occurs. -/
def isPyIntChar (c : Char) : Bool :=
  c == '0' || c == '1' || c == '_' || c == '+' || c == '-' || c == 'b' || c == 'B'
    || isPySpace c

/-- Digit tail of a base-2 numeral, after the first digit: digits with
single grouping underscores BETWEEN digits (`prevU` records that the
previous character was an underscore, which must be followed by a digit;
`int('1__0', 2)` and `int('10_', 2)` raise). -/
def parseDigitsCore (acc : ℕ) (prevU : Bool) : List Char → Option ℕ
  | [] => if prevU then none else some acc
  | c :: cs =>
    if c = '0' then parseDigitsCore (2 * acc) false cs
    else if c = '1' then parseDigitsCore (2 * acc + 1) false cs
    else if c = '_' then (if prevU then none else parseDigitsCore acc true cs)
    else none

/-- A base-2 numeral must have at least one digit (`int('', 2)`,
`int('0b', 2)` and `int('_1', 2)` raise). -/
def parseFirst (cs : List Char) : Option ℕ :=
  match cs with
  | c :: rest =>
    if c = '0' then parseDigitsCore 0 false rest
    else if c = '1' then parseDigitsCore 1 false rest
    else none
  | [] => none

/-- After a `0b`/`0B` prefix one optional grouping underscore may precede
the first digit (`int('0b_10', 2) = 2`, `int('0b__1', 2)` raises). -/
def parseAfterPfx (cs : List Char) : Option ℕ :=
  match cs with
  | c :: rest => if c = '_' then parseFirst rest else parseFirst cs
  | [] => parseFirst []

/-- Numeral body after sign and surrounding whitespace: an optional
`0b`/`0B` prefix, then digits. -/
def parseBody (cs : List Char) : Option ℕ :=
  match cs with
  | c1 :: c2 :: rest =>
    if c1 = '0' ∧ (c2 = 'b' ∨ c2 = 'B') then parseAfterPfx rest
    else parseFirst cs
  | _ => parseFirst cs

/-- Model of Python `int(k, 2)` on a measurement key `k`: strip surrounding
whitespace, accept an optional `+` sign and an optional `0b`/`0B` prefix,
then binary digits with legally placed grouping underscores; `none` where
`int(k, 2)` raises `ValueError` (empty or digit-less input, a character
invalid for the grammar, a misplaced underscore, interior whitespace).
Modelled domain: ASCII keys without a minus sign — a `-`-signed numeral
decodes in Python to a negative state whose two's-complement bits would
flow through the scoring loops, and `int()` additionally maps Unicode
digits and whitespace; neither occurs in a measurement dictionary. -/
def parseBin (cs : List Char) : Option ℕ :=
  match ((cs.dropWhile isPySpace).reverse.dropWhile isPySpace).reverse with
  | c :: rest => if c = '+' then parseBody rest else parseBody (c :: rest)
  | [] => parseBody []

/-- Decode every key of a measurement dictionary, keeping insertion order:
models the `state = int(k, 2)` line executed on each iteration of the
`for k, v in res.items()` loops.  A single undecodable key makes the whole
call raise, hence `none`. -/
def parseRes : List (List Char × ℚ) → Option (List (ℕ × List Char × ℚ))
  | [] => some []
  | kv :: rest =>
    match parseBin kv.1 with
    | none => none
    | some s =>
      match parseRes rest with
      | none => none
      | some l => some ((s, kv.1, kv.2) :: l)

/-- One iteration of the accumulation loop of `compute_mean_terr`
(lines 39-53): the running pair is `(terr, shots)`; `shots += v` always,
`terr += terrs*v` only when `ns == d`. -/
def meanStep (N d : ℕ) (Sm : ℕ → ℕ → ℚ) (g : ℕ → ℚ) (acc : ℚ × ℚ)
    (skv : ℕ × List Char × ℚ) : ℚ × ℚ :=
  (if popcountN skv.1 N = d then acc.1 + stateTerr N Sm g skv.1 * skv.2.2 else acc.1,
   acc.2 + skv.2.2)

/-- Embedding of `compute_mean_terr` from `compute_tracking_error.py` (lines 37-57).
Returns `none` where Python raises: an undecodable key (`ValueError`) or a
zero total weight (`ZeroDivisionError` at `terr /= shots`). -/
def compute_mean_terr (res : List (List Char × ℚ)) (N d : ℕ)
    (Sm : ℕ → ℕ → ℚ) (g : ℕ → ℚ) (ε0 : ℚ) : Option ℚ :=
  match parseRes res with
  | none => none
  | some svs =>
    let p := svs.foldl (meanStep N d Sm g) (0, 0)
    if p.2 = 0 then none else some (p.1 / p.2 + ε0)

/-- One iteration of the scan of `find_min_terr` (lines 94-108): update the
running `(terr, stocks)` pair when `ns == d and terrs < terr`.  The
observation weight `v` is never consulted, exactly as in the source. -/
def findStep (N d : ℕ) (Sm : ℕ → ℕ → ℚ) (g : ℕ → ℚ) (acc : ℚ × List Char)
    (skv : ℕ × List Char × ℚ) : ℚ × List Char :=
  if popcountN skv.1 N = d ∧ stateTerr N Sm g skv.1 < acc.1 then
    (stateTerr N Sm g skv.1, skv.2.1)
  else acc

/-- Embedding of `find_min_terr` from `compute_tracking_error.py` (lines 60-110).
Starts from the sentinel pair `terr = 1e5`, `stocks = ''` and returns the
final pair; `ε0` is accepted but never used, exactly as in the source.
`none` models the `ValueError` raised by `int(k, 2)` on a bad key. -/
def find_min_terr (res : List (List Char × ℚ)) (N d : ℕ)
    (Sm : ℕ → ℕ → ℚ) (g : ℕ → ℚ) (ε0 : ℚ) : Option (ℚ × List Char) :=
  (parseRes res).map (fun svs => svs.foldl (findStep N d Sm g) (100000, []))

/-- The vector `b` of `solve_qubo_exhaustive` (line 158):
`b[i] = Σ[i,i]*w[i]**2 - 2*g[i]*w[i]`. -/
def bvec (Sm : ℕ → ℕ → ℚ) (w g : ℕ → ℚ) (i : ℕ) : ℚ :=
  Sm i i * w i ^ 2 - 2 * g i * w i

/-- The upper-triangular matrix `A` of `solve_qubo_exhaustive` (line 160):
`A[i, j] = 2*Σ[j, i]*w[i]*w[j]` for `j > i`, zero elsewhere (the array is
created as `np.zeros` and only the strict upper triangle is filled). -/
def Amat (Sm : ℕ → ℕ → ℚ) (w : ℕ → ℚ) (i j : ℕ) : ℚ :=
  if i < j then 2 * Sm j i * w i * w j else 0

/-- Tracking error of state `s` as computed by the inner evaluation loop of
`solve_qubo_exhaustive` (lines 175-181): `terr += b[i]` for each set bit `i`
and `terr += A[i, j]` for each set pair `i < j`. -/
def pairTerr (N : ℕ) (Sm : ℕ → ℕ → ℚ) (g w : ℕ → ℚ) (s : ℕ) : ℚ :=
  ∑ i ∈ Finset.range N,
    (if bitOf s i = 1 then
      bvec Sm w g i
        + ∑ j ∈ Finset.Ico (i + 1) N, (if bitOf s j = 1 then Amat Sm w i j else 0)
    else 0)

/-- One iteration of the enumeration loop of `solve_qubo_exhaustive`
(lines 166-185): skip states whose popcount differs from `d`, otherwise keep
`(min_terr, min_terr_state)` updated under the strict comparison
`terr < min_terr`. -/
def exhStep (N d : ℕ) (Sm : ℕ → ℕ → ℚ) (g w : ℕ → ℚ) (acc : ℚ × ℕ) (s : ℕ) :
    ℚ × ℕ :=
  if popcountN s N ≠ d then acc
  else if pairTerr N Sm g w s < acc.1 then (pairTerr N Sm g w s, s) else acc

/-- The full enumeration `for s in range(1 << N)` of `solve_qubo_exhaustive`
starting from `min_terr = 1e5`, `min_terr_state = 0`. -/
def exhSearch (N d : ℕ) (Sm : ℕ → ℕ → ℚ) (g w : ℕ → ℚ) : ℚ × ℕ :=
  (List.range (2 ^ N)).foldl (exhStep N d Sm g w) (100000, 0)

/-- Partial run of the enumeration loop over the states `0, …, M-1`. -/
def exhFold (N d : ℕ) (Sm : ℕ → ℕ → ℚ) (g w : ℕ → ℚ) (M : ℕ) : ℚ × ℕ :=
  (List.range M).foldl (exhStep N d Sm g w) (100000, 0)

/-- Embedding of `solve_qubo_exhaustive` from `minimize_track_error.py` (lines 115-194).
In the source `N = g.size`; with vectors modelled as functions the size is an
explicit argument.  Returns the boolean stock array (`np.zeros(N, bool)` with
the bits of `min_terr_state` written in) and `min_terr + ε0`. -/
def solve_qubo_exhaustive (d : ℕ) (w : ℕ → ℚ) (Sm : ℕ → ℕ → ℚ) (g : ℕ → ℚ)
    (ε0 : ℚ) (N : ℕ) : (ℕ → Bool) × ℚ :=
  let r := exhSearch N d Sm g w
  (fun i => decide (i < N) && decide (bitOf r.2 i = 1), r.1 + ε0)

/-- Restriction of a weight vector to a boolean selection, the `w'` of the
specification: `w'_i = w_i` if asset `i` is selected, else `0`. -/
def selW (w : ℕ → ℚ) (sel : ℕ → Bool) (i : ℕ) : ℚ := if sel i then w i else 0

/-- Independent full quadratic tracking-error formula of the specification:
`w'^T Σ w' - 2 g·w' + ε0` with `w'` the selection-restricted weights.  This
is the cross-check formula named by the claims, deliberately distinct from
the optimized `A`/`b` path of the source. -/
def fullTerr (N : ℕ) (Sm : ℕ → ℕ → ℚ) (g : ℕ → ℚ) (ε0 : ℚ) (w : ℕ → ℚ)
    (sel : ℕ → Bool) : ℚ :=
  (∑ i ∈ Finset.range N, ∑ j ∈ Finset.range N,
      selW w sel i * Sm i j * selW w sel j)
    - 2 * ∑ i ∈ Finset.range N, g i * selW w sel i + ε0

/-- The boolean selection induced by an integer bitmask. -/
def maskSel (s : ℕ) : ℕ → Bool := fun i => decide (bitOf s i = 1)

/-- Modelled from the spec (§4.4 `expectedError`), for comparison in the
refinement claim about `compute_mean_terr`: samples of the wrong cardinality
are dropped from the numerator AND from the denominator, and the valid-weight
denominator being zero is the `NoValidSamples` failure. -/
def specExpectedError (res : List (List Char × ℚ)) (N d : ℕ)
    (Sm : ℕ → ℕ → ℚ) (g : ℕ → ℚ) (ε0 : ℚ) : Option ℚ :=
  match parseRes res with
  | none => none
  | some svs =>
    let valid := svs.filter (fun sv => popcountN sv.1 N = d)
    let denom := (valid.map (fun sv => sv.2.2)).sum
    let num := (valid.map (fun sv => stateTerr N Sm g sv.1 * sv.2.2)).sum
    if denom = 0 then none else some (num / denom + ε0)

/-- The `Portfolio` object of `get_data.py`: the fields consumed and written
by `minimize_track_error.py`.  Arrays are modelled as total functions; `n`
and `w` have meaningful entries below `N`. -/
structure Portfolio where
  N : ℕ
  n : ℕ → Bool
  w : ℕ → ℚ
  Sm : ℕ → ℕ → ℚ
  g : ℕ → ℚ
  ε0 : ℚ

/-- Embedding of `solve_qubo` from `minimize_track_error.py` (lines 61-112), specialized
to its only implemented method `'exhaustive'`.  Restricts `Σ`/`g` to the
available stocks (`np.where(pf.n == True)`), runs the exhaustive solver with
the full weight vector `pf.w` exactly as line 107 does, and — modelling the
Python in-place mutation `pf.n = stocks` by explicit state passing — returns
the resulting portfolio next to `(stocks, terr)`. -/
def solve_qubo (pf : Portfolio) (d : ℕ) (update_potfolio : Bool) :
    ((ℕ → Bool) × ℚ) × Portfolio :=
  let ixa := (List.range pf.N).filter (fun i => pf.n i)
  let Nn := ixa.length
  let Sr : ℕ → ℕ → ℚ := fun i j =>
    if i < Nn ∧ j < Nn then pf.Sm (ixa.getD i 0) (ixa.getD j 0) else 0
  let gr : ℕ → ℚ := fun i => if i < Nn then pf.g (ixa.getD i 0) else 0
  let r := solve_qubo_exhaustive d pf.w Sr gr pf.ε0 Nn
  (r, if update_potfolio then { pf with n := r.1 } else pf)

/-- Embedding of `minimize_w` from `minimize_track_error.py` (lines 7-58).  Modelled from
the spec for the part outside this repository's core: the continuous
minimizer is the external convex-optimization oracle (`scipy.optimize.minimize`
with a random feasible start), so its reported solution `res_x` is a
parameter here.  What remains of the function is its state effect: write
`portfolio.w = res.x` when `update_portfolio` is set (lines 55-56), return
nothing else. -/
def minimize_w (pf : Portfolio) (res_x : ℕ → ℚ) (update_portfolio : Bool) :
    Portfolio :=
  if update_portfolio then { pf with w := res_x } else pf

/-! Basic facts about bits and popcounts. -/

lemma bitOf_eq_ite (s i : ℕ) : bitOf s i = if s.testBit i then 1 else 0 := by
  rw [bitOf, Nat.testBit_to_div_mod, Nat.shiftRight_eq_div_pow]
  rcases Nat.mod_two_eq_zero_or_one (s / 2 ^ i) with h | h <;> simp [h]

lemma bitOf_le_one (s i : ℕ) : bitOf s i ≤ 1 := by
  rw [bitOf_eq_ite]; split <;> simp

lemma bitOf_zero_left (i : ℕ) : bitOf 0 i = 0 := by
  simp [bitOf_eq_ite]

lemma bitOf_eq_zero_of_lt {s i : ℕ} (h : s < 2 ^ i) : bitOf s i = 0 := by
  rw [bitOf_eq_ite, Nat.testBit_lt_two_pow h]
  simp

lemma bitOf_two_pow_sub_one (n i : ℕ) : bitOf (2 ^ n - 1) i = if i < n then 1 else 0 := by
  rw [bitOf_eq_ite, Nat.testBit_two_pow_sub_one]
  by_cases h : i < n <;> simp [h]

lemma popcountN_zero_left (N : ℕ) : popcountN 0 N = 0 := by
  simp [popcountN, bitOf_zero_left]

lemma eq_zero_of_popcountN_eq_zero {s N : ℕ} (hs : s < 2 ^ N)
    (h : popcountN s N = 0) : s = 0 := by
  apply Nat.eq_of_testBit_eq
  intro i
  rw [Nat.zero_testBit]
  by_cases hi : i < N
  · have hb : bitOf s i = 0 :=
      Finset.sum_eq_zero_iff.mp h i (Finset.mem_range.mpr hi)
    rw [bitOf_eq_ite] at hb
    by_cases ht : s.testBit i
    · simp [ht] at hb
    · simpa using ht
  · exact Nat.testBit_lt_two_pow
      (lt_of_lt_of_le hs (Nat.pow_le_pow_right (by norm_num) (le_of_not_lt hi)))

lemma eq_two_pow_sub_one_of_popcountN {s N : ℕ} (hs : s < 2 ^ N)
    (h : popcountN s N = N) : s = 2 ^ N - 1 := by
  have hle : ∀ i ∈ Finset.range N, bitOf s i ≤ 1 := fun i _ => bitOf_le_one s i
  have hones : ∀ i ∈ Finset.range N, bitOf s i = 1 := by
    have hsum : ∑ i ∈ Finset.range N, bitOf s i = ∑ i ∈ Finset.range N, 1 := by
      rw [← popcountN]; simpa using h
    exact (Finset.sum_eq_sum_iff_of_le hle).mp hsum
  apply Nat.eq_of_testBit_eq
  intro i
  rw [Nat.testBit_two_pow_sub_one]
  by_cases hi : i < N
  · have hb := hones i (Finset.mem_range.mpr hi)
    rw [bitOf_eq_ite] at hb
    by_cases ht : s.testBit i
    · simp [ht, hi]
    · simp [ht] at hb
  · rw [Nat.testBit_lt_two_pow
      (lt_of_lt_of_le hs (Nat.pow_le_pow_right (by norm_num) (le_of_not_lt hi)))]
    simp [hi]

lemma popcountN_two_pow_sub_one {d N : ℕ} (hd : d ≤ N) :
    popcountN (2 ^ d - 1) N = d := by
  rw [popcountN]
  have hcong : ∀ i ∈ Finset.range N, bitOf (2 ^ d - 1) i = if i ∈ Finset.range d then 1 else 0 := by
    intro i _
    rw [bitOf_two_pow_sub_one]
    by_cases h : i < d <;> simp [h]
  rw [Finset.sum_congr rfl hcong, Finset.sum_ite_mem]
  have hinter : Finset.range N ∩ Finset.range d = Finset.range d := by
    ext x
    simp only [Finset.mem_inter, Finset.mem_range]
    constructor
    · exact fun hx => hx.2
    · exact fun hx => ⟨lt_of_lt_of_le hx hd, hx⟩
  rw [hinter]
  simp

/-! Decomposition of a symmetric double sum into diagonal and strict upper
triangle, the algebraic heart of the `A`/`b` objective representation. -/

lemma sum_sym_decomp (N : ℕ) (F : ℕ → ℕ → ℚ)
    (hsym : ∀ i ∈ Finset.range N, ∀ j ∈ Finset.range N, F i j = F j i) :
    ∑ i ∈ Finset.range N, ∑ j ∈ Finset.range N, F i j
      = (∑ i ∈ Finset.range N, F i i)
        + 2 * ∑ i ∈ Finset.range N, ∑ j ∈ Finset.Ico (i + 1) N, F i j := by
  induction N with
  | zero => simp
  | succ n ih =>
    have hmem : ∀ i : ℕ, i < n → i ∈ Finset.range (n + 1) := fun i hi =>
      Finset.mem_range.mpr (Nat.lt_succ_of_lt hi)
    have hsymn : ∀ i ∈ Finset.range n, ∀ j ∈ Finset.range n, F i j = F j i := by
      intro i hi j hj
      exact hsym i (hmem i (Finset.mem_range.mp hi)) j (hmem j (Finset.mem_range.mp hj))
    have hrow : ∑ j ∈ Finset.range n, F n j = ∑ j ∈ Finset.range n, F j n := by
      refine Finset.sum_congr rfl ?_
      intro j hj
      exact hsym n (Finset.self_mem_range_succ n) j (hmem j (Finset.mem_range.mp hj))
    have htri : ∑ i ∈ Finset.range n, ∑ j ∈ Finset.Ico (i + 1) (n + 1), F i j
        = ∑ i ∈ Finset.range n, ((∑ j ∈ Finset.Ico (i + 1) n, F i j) + F i n) := by
      refine Finset.sum_congr rfl ?_
      intro i hi
      exact Finset.sum_Ico_succ_top (Finset.mem_range.mp hi) _
    simp only [Finset.sum_range_succ, Finset.Ico_self, Finset.sum_empty, add_zero]
    rw [htri, Finset.sum_add_distrib, Finset.sum_add_distrib, ih hsymn, hrow]
    ring

/-! Bridging lemmas between bit indicators and boolean selections. -/

lemma ite_bit_mul (s i : ℕ) (x : ℚ) :
    (if bitOf s i = 1 then x else 0) = (bitOf s i : ℚ) * x := by
  rw [bitOf_eq_ite]
  by_cases h : s.testBit i <;> simp [h]

lemma selW_maskSel (w : ℕ → ℚ) (s i : ℕ) :
    selW w (maskSel s) i = (bitOf s i : ℚ) * w i := by
  rw [selW, maskSel, bitOf_eq_ite]
  by_cases h : s.testBit i <;> simp [h]

lemma bit_mul_self (s i : ℕ) :
    ((bitOf s i : ℚ)) * (bitOf s i : ℚ) = (bitOf s i : ℚ) := by
  rw [bitOf_eq_ite]
  by_cases h : s.testBit i <;> simp [h]

/-- Expansion of the evaluation loop into indicator-weighted sums. -/
lemma pairTerr_expand (N : ℕ) (Sm : ℕ → ℕ → ℚ) (g w : ℕ → ℚ) (s : ℕ) :
    pairTerr N Sm g w s
      = (∑ i ∈ Finset.range N, (bitOf s i : ℚ) * bvec Sm w g i)
        + ∑ i ∈ Finset.range N, ∑ j ∈ Finset.Ico (i + 1) N,
            (bitOf s i : ℚ) * ((bitOf s j : ℚ) * Amat Sm w i j) := by
  rw [pairTerr]
  have hterm : ∀ i ∈ Finset.range N,
      (if bitOf s i = 1 then
        bvec Sm w g i
          + ∑ j ∈ Finset.Ico (i + 1) N, (if bitOf s j = 1 then Amat Sm w i j else 0)
      else 0)
        = (bitOf s i : ℚ) * bvec Sm w g i
          + ∑ j ∈ Finset.Ico (i + 1) N,
              (bitOf s i : ℚ) * ((bitOf s j : ℚ) * Amat Sm w i j) := by
    intro i _
    rw [ite_bit_mul, mul_add, Finset.mul_sum]
    congr 1
    refine Finset.sum_congr rfl ?_
    intro j _
    rw [ite_bit_mul]
  rw [Finset.sum_congr rfl hterm, Finset.sum_add_distrib]

/-- Core identity behind claim C6: the compact pairwise evaluation used by
the exhaustive solver agrees with the independent full quadratic form, for a
symmetric correlation matrix. -/
lemma pair_eq_full (N : ℕ) (Sm : ℕ → ℕ → ℚ) (g w : ℕ → ℚ) (ε0 : ℚ) (s : ℕ)
    (hsym : ∀ i ∈ Finset.range N, ∀ j ∈ Finset.range N, Sm i j = Sm j i) :
    ε0 + pairTerr N Sm g w s = fullTerr N Sm g ε0 w (maskSel s) := by
  have bit_sq : ∀ i, ((bitOf s i : ℚ)) ^ 2 = (bitOf s i : ℚ) := fun i => by
    rw [sq, bit_mul_self]
  have hF : ∀ i ∈ Finset.range N, ∀ j ∈ Finset.range N,
      selW w (maskSel s) i * Sm i j * selW w (maskSel s) j
        = selW w (maskSel s) j * Sm j i * selW w (maskSel s) i := by
    intro i hi j hj
    rw [hsym i hi j hj]; ring
  rw [fullTerr, sum_sym_decomp N _ hF]
  have hdiag : ∑ i ∈ Finset.range N,
        selW w (maskSel s) i * Sm i i * selW w (maskSel s) i
      = ∑ i ∈ Finset.range N, (bitOf s i : ℚ) * (Sm i i * w i ^ 2) := by
    refine Finset.sum_congr rfl ?_
    intro i _
    rw [selW_maskSel]
    have h2 : ((bitOf s i : ℚ) * w i) * Sm i i * ((bitOf s i : ℚ) * w i)
        = ((bitOf s i : ℚ)) ^ 2 * (Sm i i * w i ^ 2) := by ring
    rw [h2, bit_sq]
  have htri : ∑ i ∈ Finset.range N, ∑ j ∈ Finset.Ico (i + 1) N,
        (bitOf s i : ℚ) * ((bitOf s j : ℚ) * Amat Sm w i j)
      = 2 * ∑ i ∈ Finset.range N, ∑ j ∈ Finset.Ico (i + 1) N,
          selW w (maskSel s) i * Sm i j * selW w (maskSel s) j := by
    rw [Finset.mul_sum]
    refine Finset.sum_congr rfl ?_
    intro i hi
    rw [Finset.mul_sum]
    refine Finset.sum_congr rfl ?_
    intro j hj
    have hij : i < j := lt_of_lt_of_le (Nat.lt_succ_self i) (Finset.mem_Ico.mp hj).1
    have hjN : j < N := (Finset.mem_Ico.mp hj).2
    have hiN : i < N := Finset.mem_range.mp hi
    rw [Amat, if_pos hij, selW_maskSel, selW_maskSel,
      hsym j (Finset.mem_range.mpr hjN) i (Finset.mem_range.mpr hiN)]
    ring
  have hlin : ∑ i ∈ Finset.range N, g i * selW w (maskSel s) i
      = ∑ i ∈ Finset.range N, (bitOf s i : ℚ) * (g i * w i) := by
    refine Finset.sum_congr rfl ?_
    intro i _
    rw [selW_maskSel]; ring
  have hbv : ∑ i ∈ Finset.range N, (bitOf s i : ℚ) * bvec Sm w g i
      = (∑ i ∈ Finset.range N, (bitOf s i : ℚ) * (Sm i i * w i ^ 2))
        - 2 * ∑ i ∈ Finset.range N, (bitOf s i : ℚ) * (g i * w i) := by
    rw [Finset.mul_sum, ← Finset.sum_sub_distrib]
    refine Finset.sum_congr rfl ?_
    intro i _
    rw [bvec]; ring
  rw [pairTerr_expand, hbv, htri, hdiag, hlin]
  ring

/-! Invariant of the enumeration loop of `solve_qubo_exhaustive`. -/

lemma exhFold_succ (N d : ℕ) (Sm : ℕ → ℕ → ℚ) (g w : ℕ → ℚ) (M : ℕ) :
    exhFold N d Sm g w (M + 1) = exhStep N d Sm g w (exhFold N d Sm g w M) M := by
  rw [exhFold, exhFold, List.range_succ, List.foldl_append, List.foldl_cons, List.foldl_nil]

lemma exhSearch_eq_exhFold (N d : ℕ) (Sm : ℕ → ℕ → ℚ) (g w : ℕ → ℚ) :
    exhSearch N d Sm g w = exhFold N d Sm g w (2 ^ N) := rfl

/-- Loop invariant: after scanning states `< M`, the accumulator value is a
lower bound of all qualifying errors seen, it is attained by the recorded
state unless nothing qualified below the sentinel, and every qualifying state
numerically below the recorded one has strictly larger error (first-wins
tie-break under the strict `<` update). -/
lemma exhFold_spec (N d : ℕ) (Sm : ℕ → ℕ → ℚ) (g w : ℕ → ℚ) (M : ℕ) :
    (exhFold N d Sm g w M).1 ≤ 100000
    ∧ (∀ s, s < M → popcountN s N = d →
        (exhFold N d Sm g w M).1 ≤ pairTerr N Sm g w s)
    ∧ (((exhFold N d Sm g w M).1 = 100000 ∧ (exhFold N d Sm g w M).2 = 0)
        ∨ (popcountN (exhFold N d Sm g w M).2 N = d
            ∧ (exhFold N d Sm g w M).2 < M
            ∧ (exhFold N d Sm g w M).1 = pairTerr N Sm g w (exhFold N d Sm g w M).2
            ∧ (exhFold N d Sm g w M).1 < 100000))
    ∧ (∀ s, s < M → popcountN s N = d → s < (exhFold N d Sm g w M).2 →
        (exhFold N d Sm g w M).1 < pairTerr N Sm g w s) := by
  induction M with
  | zero =>
    refine ⟨le_refl _, ?_, Or.inl ⟨rfl, rfl⟩, ?_⟩
    · intro s hs _
      exact absurd hs (Nat.not_lt_zero s)
    · intro s hs _ _
      exact absurd hs (Nat.not_lt_zero s)
  | succ M ih =>
    obtain ⟨ih1, ih2, ih3, ih4⟩ := ih
    rw [exhFold_succ]
    by_cases hq : popcountN M N = d
    · by_cases hlt : pairTerr N Sm g w M < (exhFold N d Sm g w M).1
      · have hstep : exhStep N d Sm g w (exhFold N d Sm g w M) M
            = (pairTerr N Sm g w M, M) := by
          rw [exhStep, if_neg (by simp [hq]), if_pos hlt]
        rw [hstep]
        refine ⟨le_of_lt (lt_of_lt_of_le hlt ih1), ?_, ?_, ?_⟩
        · intro s hs hp
          rcases Nat.lt_succ_iff_lt_or_eq.mp hs with hs' | hs'
          · exact le_of_lt (lt_of_lt_of_le hlt (ih2 s hs' hp))
          · subst hs'
            exact le_refl _
        · exact Or.inr ⟨hq, Nat.lt_succ_self M, rfl, lt_of_lt_of_le hlt ih1⟩
        · intro s hs hp hsM
          exact lt_of_lt_of_le hlt (ih2 s hsM hp)
      · have hstep : exhStep N d Sm g w (exhFold N d Sm g w M) M
            = exhFold N d Sm g w M := by
          rw [exhStep, if_neg (by simp [hq]), if_neg hlt]
        rw [hstep]
        refine ⟨ih1, ?_, ?_, ?_⟩
        · intro s hs hp
          rcases Nat.lt_succ_iff_lt_or_eq.mp hs with hs' | hs'
          · exact ih2 s hs' hp
          · subst hs'
            exact le_of_not_lt hlt
        · rcases ih3 with h | ⟨h1, h2, h3, h4⟩
          · exact Or.inl h
          · exact Or.inr ⟨h1, Nat.lt_succ_of_lt h2, h3, h4⟩
        · intro s hs hp hsR
          have hsM : s < M := by
            rcases ih3 with ⟨_, h0⟩ | ⟨_, h2, _, _⟩
            · rw [h0] at hsR
              exact absurd hsR (Nat.not_lt_zero s)
            · exact lt_trans hsR h2
          exact ih4 s hsM hp hsR
    · have hstep : exhStep N d Sm g w (exhFold N d Sm g w M) M
          = exhFold N d Sm g w M := by
        rw [exhStep, if_pos hq]
      rw [hstep]
      refine ⟨ih1, ?_, ?_, ?_⟩
      · intro s hs hp
        rcases Nat.lt_succ_iff_lt_or_eq.mp hs with hs' | hs'
        · exact ih2 s hs' hp
        · subst hs'
          exact absurd hp hq
      · rcases ih3 with h | ⟨h1, h2, h3, h4⟩
        · exact Or.inl h
        · exact Or.inr ⟨h1, Nat.lt_succ_of_lt h2, h3, h4⟩
      · intro s hs hp hsR
        have hsM : s < M := by
          rcases ih3 with ⟨_, h0⟩ | ⟨_, h2, _, _⟩
          · rw [h0] at hsR
            exact absurd hsR (Nat.not_lt_zero s)
          · exact lt_trans hsR h2
        exact ih4 s hsM hp hsR

/-- Summary of the loop invariant at the full range, under the hypothesis
that some cardinality-`d` state beats the `1e5` sentinel: the recorded state
qualifies, attains the minimum error, and is the numerically smallest state
doing so. -/
lemma exhSearch_min (N d : ℕ) (Sm : ℕ → ℕ → ℚ) (g w : ℕ → ℚ)
    (hex : ∃ s ∈ Finset.range (2 ^ N),
      popcountN s N = d ∧ pairTerr N Sm g w s < 100000) :
    popcountN (exhSearch N d Sm g w).2 N = d
    ∧ (exhSearch N d Sm g w).2 < 2 ^ N
    ∧ (exhSearch N d Sm g w).1 = pairTerr N Sm g w (exhSearch N d Sm g w).2
    ∧ (∀ s ∈ Finset.range (2 ^ N), popcountN s N = d →
        pairTerr N Sm g w (exhSearch N d Sm g w).2 ≤ pairTerr N Sm g w s)
    ∧ (∀ s ∈ Finset.range (2 ^ N), popcountN s N = d →
        s < (exhSearch N d Sm g w).2 →
        pairTerr N Sm g w (exhSearch N d Sm g w).2 < pairTerr N Sm g w s) := by
  obtain ⟨s0, hs0r, hs0p, hs0lt⟩ := hex
  obtain ⟨h1, h2, h3, h4⟩ := exhFold_spec N d Sm g w (2 ^ N)
  rw [exhSearch_eq_exhFold]
  have hlow : (exhFold N d Sm g w (2 ^ N)).1 < 100000 :=
    lt_of_le_of_lt (h2 s0 (Finset.mem_range.mp hs0r) hs0p) hs0lt
  rcases h3 with ⟨h100, _⟩ | ⟨hp, hb, heq, _⟩
  · rw [h100] at hlow
    exact absurd hlow (lt_irrefl _)
  · refine ⟨hp, hb, heq, ?_, ?_⟩
    · intro s hs hps
      rw [← heq]
      exact h2 s (Finset.mem_range.mp hs) hps
    · intro s hs hps hsR
      rw [← heq]
      exact h4 s (Finset.mem_range.mp hs) hps hsR

/-! Magnitude bound: with genuinely correlation-shaped data (entries of `Σ`
and `g` in `[-1, 1]`, weights in `[0, 1]`) and `N ≤ 12`, every state's
pairwise error stays far below the `1e5` sentinel of the source. -/

lemma pairTerr_lt_sentinel (N : ℕ) (Sm : ℕ → ℕ → ℚ) (g w : ℕ → ℚ)
    (hN : N ≤ 12)
    (hS : ∀ i ∈ Finset.range N, ∀ j ∈ Finset.range N, |Sm i j| ≤ 1)
    (hg : ∀ i ∈ Finset.range N, |g i| ≤ 1)
    (hw0 : ∀ i ∈ Finset.range N, 0 ≤ w i)
    (hw1 : ∀ i ∈ Finset.range N, w i ≤ 1)
    (s : ℕ) : pairTerr N Sm g w s < 100000 := by
  have hterm : ∀ i ∈ Finset.range N,
      (if bitOf s i = 1 then
        bvec Sm w g i
          + ∑ j ∈ Finset.Ico (i + 1) N, (if bitOf s j = 1 then Amat Sm w i j else 0)
      else 0) ≤ 27 := by
    intro i hi
    by_cases hb : bitOf s i = 1
    · rw [if_pos hb]
      have hbv : bvec Sm w g i ≤ 3 := by
        obtain ⟨hS1, hS2⟩ := abs_le.mp (hS i hi i hi)
        obtain ⟨hg1, hg2⟩ := abs_le.mp (hg i hi)
        have hw0i := hw0 i hi
        have hw1i := hw1 i hi
        rw [bvec]
        nlinarith [sq_nonneg (w i), mul_le_mul_of_nonneg_right hS2 (sq_nonneg (w i))]
      have hA : ∑ j ∈ Finset.Ico (i + 1) N,
          (if bitOf s j = 1 then Amat Sm w i j else 0) ≤ 24 := by
        have hterm2 : ∀ j ∈ Finset.Ico (i + 1) N,
            (if bitOf s j = 1 then Amat Sm w i j else 0) ≤ 2 := by
          intro j hj
          have hij : i < j := lt_of_lt_of_le (Nat.lt_succ_self i) (Finset.mem_Ico.mp hj).1
          have hjN : j ∈ Finset.range N := Finset.mem_range.mpr (Finset.mem_Ico.mp hj).2
          by_cases hbj : bitOf s j = 1
          · rw [if_pos hbj, Amat, if_pos hij]
            obtain ⟨hS1, hS2⟩ := abs_le.mp (hS j hjN i hi)
            have hw0i := hw0 i hi
            have hw1i := hw1 i hi
            have hw0j := hw0 j hjN
            have hw1j := hw1 j hjN
            nlinarith [mul_nonneg hw0i hw0j, mul_le_one₀ hw1i hw0j hw1j]
          · rw [if_neg hbj]
            norm_num
        calc ∑ j ∈ Finset.Ico (i + 1) N,
              (if bitOf s j = 1 then Amat Sm w i j else 0)
            ≤ ∑ _j ∈ Finset.Ico (i + 1) N, (2 : ℚ) := Finset.sum_le_sum hterm2
          _ = ((N - (i + 1) : ℕ) : ℚ) * 2 := by
              rw [Finset.sum_const, Nat.card_Ico, nsmul_eq_mul]
          _ ≤ 12 * 2 := by
              have : ((N - (i + 1) : ℕ) : ℚ) ≤ 12 := by
                have h1 : N - (i + 1) ≤ 12 := le_trans (Nat.sub_le N (i + 1)) hN
                exact_mod_cast Nat.cast_le.mpr h1
              linarith
          _ = 24 := by norm_num
      linarith
    · rw [if_neg hb]
      norm_num
  calc pairTerr N Sm g w s
      ≤ ∑ _i ∈ Finset.range N, (27 : ℚ) := Finset.sum_le_sum hterm
    _ = (N : ℚ) * 27 := by rw [Finset.sum_const, Finset.card_range, nsmul_eq_mul]
    _ ≤ 12 * 27 := by
        have : (N : ℚ) ≤ 12 := by exact_mod_cast Nat.cast_le.mpr hN
        linarith
    _ < 100000 := by norm_num

/-- For every `d ≤ N` some state below `2 ^ N` has exactly `d` set bits. -/
lemma exists_state_with_popcount {d N : ℕ} (hd : d ≤ N) :
    ∃ s ∈ Finset.range (2 ^ N), popcountN s N = d := by
  refine ⟨2 ^ d - 1, Finset.mem_range.mpr ?_, popcountN_two_pow_sub_one hd⟩
  have h1 : 2 ^ d ≤ 2 ^ N := Nat.pow_le_pow_right (by norm_num) hd
  have h2 : 1 ≤ 2 ^ d := Nat.one_le_two_pow
  omega

lemma pairTerr_zero_state (N : ℕ) (Sm : ℕ → ℕ → ℚ) (g w : ℕ → ℚ) :
    pairTerr N Sm g w 0 = 0 := by
  rw [pairTerr]
  refine Finset.sum_eq_zero ?_
  intro i _
  rw [bitOf_zero_left]
  norm_num

lemma pairTerr_all_ones (N : ℕ) (Sm : ℕ → ℕ → ℚ) (g w : ℕ → ℚ) :
    pairTerr N Sm g w (2 ^ N - 1)
      = (∑ i ∈ Finset.range N, bvec Sm w g i)
        + ∑ i ∈ Finset.range N, ∑ j ∈ Finset.Ico (i + 1) N, Amat Sm w i j := by
  rw [pairTerr, ← Finset.sum_add_distrib]
  refine Finset.sum_congr rfl ?_
  intro i hi
  have hbi : bitOf (2 ^ N - 1) i = 1 := by
    rw [bitOf_two_pow_sub_one, if_pos (Finset.mem_range.mp hi)]
  rw [if_pos hbi]
  congr 1
  refine Finset.sum_congr rfl ?_
  intro j hj
  have hbj : bitOf (2 ^ N - 1) j = 1 := by
    rw [bitOf_two_pow_sub_one, if_pos (Finset.mem_Ico.mp hj).2]
  rw [if_pos hbj]

lemma fullTerr_congr (N : ℕ) (Sm : ℕ → ℕ → ℚ) (g : ℕ → ℚ) (ε0 : ℚ) (w : ℕ → ℚ)
    (sel₁ sel₂ : ℕ → Bool) (h : ∀ i ∈ Finset.range N, sel₁ i = sel₂ i) :
    fullTerr N Sm g ε0 w sel₁ = fullTerr N Sm g ε0 w sel₂ := by
  have hW : ∀ i ∈ Finset.range N, selW w sel₁ i = selW w sel₂ i := by
    intro i hi
    rw [selW, selW, h i hi]
  have h2 : ∑ i ∈ Finset.range N, ∑ j ∈ Finset.range N,
        selW w sel₁ i * Sm i j * selW w sel₁ j
      = ∑ i ∈ Finset.range N, ∑ j ∈ Finset.range N,
          selW w sel₂ i * Sm i j * selW w sel₂ j := by
    refine Finset.sum_congr rfl ?_
    intro i hi
    refine Finset.sum_congr rfl ?_
    intro j hj
    rw [hW i hi, hW j hj]
  have h3 : ∑ i ∈ Finset.range N, g i * selW w sel₁ i
      = ∑ i ∈ Finset.range N, g i * selW w sel₂ i := by
    refine Finset.sum_congr rfl ?_
    intro i hi
    rw [hW i hi]
  rw [fullTerr, fullTerr, h2, h3]

lemma solve_qubo_exhaustive_fst (d : ℕ) (w : ℕ → ℚ) (Sm : ℕ → ℕ → ℚ)
    (g : ℕ → ℚ) (ε0 : ℚ) (N : ℕ) :
    (solve_qubo_exhaustive d w Sm g ε0 N).1
      = fun i => decide (i < N) && decide (bitOf (exhSearch N d Sm g w).2 i = 1) := rfl

lemma solve_qubo_exhaustive_snd (d : ℕ) (w : ℕ → ℚ) (Sm : ℕ → ℕ → ℚ)
    (g : ℕ → ℚ) (ε0 : ℚ) (N : ℕ) :
    (solve_qubo_exhaustive d w Sm g ε0 N).2 = (exhSearch N d Sm g w).1 + ε0 := rfl

/-- Claim C1.  For `N ≤ 12`, any `d ≤ N`, any correlation matrix `Σ`
(symmetric, entries in `[-1, 1]`), any index-correlation vector `g` (entries
in `[-1, 1]`), any weight vector `w` (non-negative, summing to `1`) and any
`ε0`, the selection returned by `solve_qubo_exhaustive` has exactly `d` set
bits and, measured by the independent full quadratic formula
`w'^T Σ w' - 2 g·w' + ε0`, its tracking error is no greater than that of
every other cardinality-`d` selection. -/
theorem solve_qubo_exhaustive_optimal (N d : ℕ) (Sm : ℕ → ℕ → ℚ)
    (g w : ℕ → ℚ) (ε0 : ℚ)
    (hN : N ≤ 12) (hd : d ≤ N)
    (hsym : ∀ i ∈ Finset.range N, ∀ j ∈ Finset.range N, Sm i j = Sm j i)
    (hS : ∀ i ∈ Finset.range N, ∀ j ∈ Finset.range N, |Sm i j| ≤ 1)
    (hg : ∀ i ∈ Finset.range N, |g i| ≤ 1)
    (hw0 : ∀ i ∈ Finset.range N, 0 ≤ w i)
    (hw1 : ∑ i ∈ Finset.range N, w i = 1) :
    (∑ i ∈ Finset.range N,
        (if (solve_qubo_exhaustive d w Sm g ε0 N).1 i then 1 else 0)) = d
    ∧ ∀ s ∈ Finset.range (2 ^ N), popcountN s N = d →
        fullTerr N Sm g ε0 w (solve_qubo_exhaustive d w Sm g ε0 N).1
          ≤ fullTerr N Sm g ε0 w (maskSel s) := by
  have hwle : ∀ i ∈ Finset.range N, w i ≤ 1 := by
    intro i hi
    calc w i ≤ ∑ j ∈ Finset.range N, w j :=
          Finset.single_le_sum (fun j hj => hw0 j hj) hi
      _ = 1 := hw1
  have hex : ∃ s ∈ Finset.range (2 ^ N),
      popcountN s N = d ∧ pairTerr N Sm g w s < 100000 := by
    obtain ⟨s0, hs0r, hs0p⟩ := exists_state_with_popcount hd
    exact ⟨s0, hs0r, hs0p, pairTerr_lt_sentinel N Sm g w hN hS hg hw0 hwle s0⟩
  obtain ⟨hp, hb, heq, hmin, _⟩ := exhSearch_min N d Sm g w hex
  have hsel : ∀ i ∈ Finset.range N,
      (solve_qubo_exhaustive d w Sm g ε0 N).1 i
        = maskSel (exhSearch N d Sm g w).2 i := by
    intro i hi
    rw [solve_qubo_exhaustive_fst, maskSel]
    simp [Finset.mem_range.mp hi]
  constructor
  · have hcount : ∀ i ∈ Finset.range N,
        (if (solve_qubo_exhaustive d w Sm g ε0 N).1 i then (1 : ℕ) else 0)
          = bitOf (exhSearch N d Sm g w).2 i := by
      intro i hi
      rw [hsel i hi, maskSel]
      by_cases hbit : bitOf (exhSearch N d Sm g w).2 i = 1
      · simp [hbit]
      · have h0 : bitOf (exhSearch N d Sm g w).2 i = 0 := by
          have := bitOf_le_one (exhSearch N d Sm g w).2 i
          omega
        simp [hbit, h0]
    rw [Finset.sum_congr rfl hcount]
    exact hp
  · intro s hs hps
    rw [fullTerr_congr N Sm g ε0 w _ _ hsel,
      ← pair_eq_full N Sm g w ε0 _ hsym, ← pair_eq_full N Sm g w ε0 s hsym,
      ← heq]
    have := hmin s hs hps
    rw [← heq] at this
    linarith

/-- Witness for C1 at `N = 2`, `d = 1`, the identity correlation matrix,
`g = 0`, weights `(1, 0)` and `ε0 = 0`. -/
theorem solve_qubo_exhaustive_optimal_witness :
    (2 ≤ 12) ∧ (1 ≤ 2)
    ∧ (∀ i ∈ Finset.range 2, ∀ j ∈ Finset.range 2,
        (fun i j => if i = j then (1 : ℚ) else 0) i j
          = (fun i j => if i = j then (1 : ℚ) else 0) j i)
    ∧ (∀ i ∈ Finset.range 2, ∀ j ∈ Finset.range 2,
        |(fun i j => if i = j then (1 : ℚ) else 0) i j| ≤ 1)
    ∧ (∀ i ∈ Finset.range 2, |(fun _ : ℕ => (0 : ℚ)) i| ≤ 1)
    ∧ (∀ i ∈ Finset.range 2, 0 ≤ (fun i : ℕ => if i = 0 then (1 : ℚ) else 0) i)
    ∧ (∑ i ∈ Finset.range 2, (fun i : ℕ => if i = 0 then (1 : ℚ) else 0) i = 1)
    ∧ ((∑ i ∈ Finset.range 2,
          (if (solve_qubo_exhaustive 1 (fun i => if i = 0 then (1 : ℚ) else 0)
              (fun i j => if i = j then (1 : ℚ) else 0) (fun _ => 0) 0 2).1 i
            then 1 else 0)) = 1
        ∧ ∀ s ∈ Finset.range (2 ^ 2), popcountN s 2 = 1 →
            fullTerr 2 (fun i j => if i = j then (1 : ℚ) else 0) (fun _ => 0) 0
                (fun i => if i = 0 then (1 : ℚ) else 0)
                (solve_qubo_exhaustive 1 (fun i => if i = 0 then (1 : ℚ) else 0)
                  (fun i j => if i = j then (1 : ℚ) else 0) (fun _ => 0) 0 2).1
              ≤ fullTerr 2 (fun i j => if i = j then (1 : ℚ) else 0) (fun _ => 0) 0
                  (fun i => if i = 0 then (1 : ℚ) else 0) (maskSel s)) :=
  ⟨by decide, by decide, by decide, by decide, by decide, by decide,
    by simp [Finset.sum_range_succ],
    solve_qubo_exhaustive_optimal 2 1 _ _ _ 0 (by decide) (by decide) (by decide)
      (by decide) (by decide) (by decide) (by simp [Finset.sum_range_succ])⟩

/-- Claim C6.  For a symmetric matrix `Σ`, the compact pairwise evaluation
`ε0 + Σ_i n_i·b[i] + Σ_{i<j} n_i·n_j·A[i,j]` (with `b` and `A` exactly as
built on lines 155-160 of the source) equals the direct quadratic form
`w'^T Σ w' - 2 g·w' + ε0` with `w'` the selection-restricted weights. -/
theorem objective_decomposition_equiv (N : ℕ) (Sm : ℕ → ℕ → ℚ) (g w : ℕ → ℚ)
    (ε0 : ℚ) (s : ℕ)
    (hsym : ∀ i ∈ Finset.range N, ∀ j ∈ Finset.range N, Sm i j = Sm j i) :
    ε0 + (∑ i ∈ Finset.range N, (bitOf s i : ℚ) * bvec Sm w g i)
      + (∑ i ∈ Finset.range N, ∑ j ∈ Finset.Ico (i + 1) N,
          (bitOf s i : ℚ) * (bitOf s j : ℚ) * Amat Sm w i j)
    = fullTerr N Sm g ε0 w (maskSel s) := by
  rw [← pair_eq_full N Sm g w ε0 s hsym, pairTerr_expand]
  have hassoc : ∑ i ∈ Finset.range N, ∑ j ∈ Finset.Ico (i + 1) N,
        (bitOf s i : ℚ) * (bitOf s j : ℚ) * Amat Sm w i j
      = ∑ i ∈ Finset.range N, ∑ j ∈ Finset.Ico (i + 1) N,
          (bitOf s i : ℚ) * ((bitOf s j : ℚ) * Amat Sm w i j) := by
    refine Finset.sum_congr rfl ?_
    intro i _
    refine Finset.sum_congr rfl ?_
    intro j _
    ring
  rw [hassoc]
  ring

/-- Witness for C6 at `N = 2` with a constant symmetric matrix and the
selection bitmask `s = 1`. -/
theorem objective_decomposition_equiv_witness :
    (∀ i ∈ Finset.range 2, ∀ j ∈ Finset.range 2,
      (fun _ _ : ℕ => (1 : ℚ)) i j = (fun _ _ : ℕ => (1 : ℚ)) j i)
    ∧ ((2 : ℚ) + (∑ i ∈ Finset.range 2,
          (bitOf 1 i : ℚ) * bvec (fun _ _ => (1 : ℚ)) (fun _ => 1) (fun _ => 0) i)
        + (∑ i ∈ Finset.range 2, ∑ j ∈ Finset.Ico (i + 1) 2,
            (bitOf 1 i : ℚ) * (bitOf 1 j : ℚ) * Amat (fun _ _ => (1 : ℚ)) (fun _ => 1) i j)
      = fullTerr 2 (fun _ _ => (1 : ℚ)) (fun _ => 0) 2 (fun _ => 1) (maskSel 1)) :=
  ⟨by decide, objective_decomposition_equiv 2 _ _ _ 2 1 (by decide)⟩

/-- Amended claim C5.  Provided some cardinality-`d` selection beats the
`1e5` sentinel, the recorded bitmask qualifies, attains the minimal pairwise
error, is the numerically smallest tying bitmask (first-wins under strict
`<` in increasing enumeration order), and is exactly the selection that
`solve_qubo_exhaustive` converts into its boolean answer.  Without the
sentinel hypothesis the claim fails, see the counterexample. -/
theorem exhaustive_tie_break (N d : ℕ) (Sm : ℕ → ℕ → ℚ) (g w : ℕ → ℚ) (ε0 : ℚ)
    (hex : ∃ s ∈ Finset.range (2 ^ N),
      popcountN s N = d ∧ pairTerr N Sm g w s < 100000) :
    popcountN (exhSearch N d Sm g w).2 N = d
    ∧ (∀ s ∈ Finset.range (2 ^ N), popcountN s N = d →
        pairTerr N Sm g w (exhSearch N d Sm g w).2 ≤ pairTerr N Sm g w s)
    ∧ (∀ s ∈ Finset.range (2 ^ N), popcountN s N = d →
        pairTerr N Sm g w s = pairTerr N Sm g w (exhSearch N d Sm g w).2 →
        (exhSearch N d Sm g w).2 ≤ s)
    ∧ (solve_qubo_exhaustive d w Sm g ε0 N).1
        = fun i => decide (i < N) && maskSel (exhSearch N d Sm g w).2 i := by
  obtain ⟨hp, _, _, hmin, hleast⟩ := exhSearch_min N d Sm g w hex
  refine ⟨hp, hmin, ?_, rfl⟩
  intro s hs hps hEq
  by_contra hlt
  push_neg at hlt
  have hstrict := hleast s hs hps hlt
  rw [hEq] at hstrict
  exact absurd hstrict (lt_irrefl _)

/-- Witness for the amended C5: at `N = 2`, `d = 1`, identity correlations
and unit weights, the masks `1` and `2` tie at error `1`, and the recorded
mask is the smaller one. -/
theorem exhaustive_tie_break_witness :
    (∃ s ∈ Finset.range (2 ^ 2), popcountN s 2 = 1
      ∧ pairTerr 2 (fun i j => if i = j then (1 : ℚ) else 0) (fun _ => 0)
          (fun _ => 1) s < 100000)
    ∧ (popcountN (exhSearch 2 1 (fun i j => if i = j then (1 : ℚ) else 0)
          (fun _ => 0) (fun _ => 1)).2 2 = 1
      ∧ (∀ s ∈ Finset.range (2 ^ 2), popcountN s 2 = 1 →
          pairTerr 2 (fun i j => if i = j then (1 : ℚ) else 0) (fun _ => 0) (fun _ => 1)
              (exhSearch 2 1 (fun i j => if i = j then (1 : ℚ) else 0)
                (fun _ => 0) (fun _ => 1)).2
            ≤ pairTerr 2 (fun i j => if i = j then (1 : ℚ) else 0) (fun _ => 0)
                (fun _ => 1) s)
      ∧ (∀ s ∈ Finset.range (2 ^ 2), popcountN s 2 = 1 →
          pairTerr 2 (fun i j => if i = j then (1 : ℚ) else 0) (fun _ => 0)
              (fun _ => 1) s
            = pairTerr 2 (fun i j => if i = j then (1 : ℚ) else 0) (fun _ => 0)
                (fun _ => 1)
                (exhSearch 2 1 (fun i j => if i = j then (1 : ℚ) else 0)
                  (fun _ => 0) (fun _ => 1)).2 →
          (exhSearch 2 1 (fun i j => if i = j then (1 : ℚ) else 0)
            (fun _ => 0) (fun _ => 1)).2 ≤ s)
      ∧ (solve_qubo_exhaustive 1 (fun _ => 1)
            (fun i j => if i = j then (1 : ℚ) else 0) (fun _ => 0) 0 2).1
          = fun i => decide (i < 2)
              && maskSel (exhSearch 2 1 (fun i j => if i = j then (1 : ℚ) else 0)
                  (fun _ => 0) (fun _ => 1)).2 i) := by
  have hex : ∃ s ∈ Finset.range (2 ^ 2), popcountN s 2 = 1
      ∧ pairTerr 2 (fun i j => if i = j then (1 : ℚ) else 0) (fun _ => 0)
          (fun _ => 1) s < 100000 := by
    refine ⟨1, by decide, by decide, ?_⟩
    norm_num [pairTerr, bvec, Amat, bitOf, Nat.shiftRight_eq_div_pow,
      Finset.sum_range_succ, Finset.sum_Ico_eq_sum_range]
  exact ⟨hex, exhaustive_tie_break 2 1 _ _ _ 0 hex⟩

/-- Counterexample to C5 as stated: with diagonal entries `200000`, the two
distinct cardinality-1 selections `1` and `2` tie at the minimal error, yet
the enumeration records the state `0` (the sentinel survives, since no
error beats `1e5`), so the returned selection is all-false rather than the
numerically smallest tying bitmask. -/
theorem tie_break_sentinel_counterexample :
    popcountN 1 2 = 1 ∧ popcountN 2 2 = 1 ∧ (1 : ℕ) ≠ 2
    ∧ pairTerr 2 (fun i j => if i = j then (200000 : ℚ) else 0) (fun _ => 0)
        (fun _ => 1) 1
      = pairTerr 2 (fun i j => if i = j then (200000 : ℚ) else 0) (fun _ => 0)
          (fun _ => 1) 2
    ∧ (∀ s ∈ Finset.range (2 ^ 2), popcountN s 2 = 1 →
        pairTerr 2 (fun i j => if i = j then (200000 : ℚ) else 0) (fun _ => 0)
            (fun _ => 1) 1
          ≤ pairTerr 2 (fun i j => if i = j then (200000 : ℚ) else 0) (fun _ => 0)
              (fun _ => 1) s)
    ∧ (exhSearch 2 1 (fun i j => if i = j then (200000 : ℚ) else 0) (fun _ => 0)
        (fun _ => 1)).2 = 0
    ∧ (solve_qubo_exhaustive 1 (fun _ => 1)
        (fun i j => if i = j then (200000 : ℚ) else 0) (fun _ => 0) 0 2).1 0 = false
    ∧ (solve_qubo_exhaustive 1 (fun _ => 1)
        (fun i j => if i = j then (200000 : ℚ) else 0) (fun _ => 0) 0 2).1 1 = false := by
  have e1 : pairTerr 2 (fun i j => if i = j then (200000 : ℚ) else 0) (fun _ => 0)
      (fun _ => 1) 1 = 200000 := by
    norm_num [pairTerr, bvec, Amat, bitOf, Nat.shiftRight_eq_div_pow,
      Finset.sum_range_succ, Finset.sum_Ico_eq_sum_range]
  have e2 : pairTerr 2 (fun i j => if i = j then (200000 : ℚ) else 0) (fun _ => 0)
      (fun _ => 1) 2 = 200000 := by
    norm_num [pairTerr, bvec, Amat, bitOf, Nat.shiftRight_eq_div_pow,
      Finset.sum_range_succ, Finset.sum_Ico_eq_sum_range]
  have hr : List.range 4 = [0, 1, 2, 3] := rfl
  have hm : (exhSearch 2 1 (fun i j => if i = j then (200000 : ℚ) else 0) (fun _ => 0)
      (fun _ => 1)).2 = 0 := by
    norm_num [exhSearch, hr, List.foldl_cons, List.foldl_nil, exhStep, popcountN,
      pairTerr, bvec, Amat, bitOf, Nat.shiftRight_eq_div_pow,
      Finset.sum_range_succ, Finset.sum_Ico_eq_sum_range]
  refine ⟨by decide, by decide, by decide, by rw [e1, e2], ?_, hm, ?_, ?_⟩
  · intro s hs hps
    rw [e1]
    have hs4 : s < 4 := Finset.mem_range.mp hs
    interval_cases s
    · exact absurd hps (by decide)
    · rw [e1]
    · rw [e2]
    · exact absurd hps (by decide)
  · rw [solve_qubo_exhaustive_fst]
    simp [hm, bitOf_zero_left]
  · rw [solve_qubo_exhaustive_fst]
    simp [hm, bitOf_zero_left]

/-- Amended claim C7.  With `d = 0` the solver returns the all-false
selection with error exactly `ε0` (unconditionally); with `d = N` it
returns the all-true selection with error `ε0 + Σ_i b[i] + Σ_{i<j} A[i,j]`
provided that value's `ε0`-excluded part beats the `1e5` sentinel — without
that proviso the `d = N` half fails, see the counterexample. -/
theorem solve_qubo_exhaustive_degenerate (N : ℕ) (Sm : ℕ → ℕ → ℚ)
    (g w : ℕ → ℚ) (ε0 : ℚ) :
    solve_qubo_exhaustive 0 w Sm g ε0 N = ((fun _ => false), ε0)
    ∧ (pairTerr N Sm g w (2 ^ N - 1) < 100000 →
        solve_qubo_exhaustive N w Sm g ε0 N
          = ((fun i => decide (i < N)),
             ε0 + ((∑ i ∈ Finset.range N, bvec Sm w g i)
               + ∑ i ∈ Finset.range N, ∑ j ∈ Finset.Ico (i + 1) N, Amat Sm w i j))) := by
  have hpow : (0 : ℕ) < 2 ^ N := Nat.lt_of_lt_of_le Nat.zero_lt_one Nat.one_le_two_pow
  constructor
  · have hex : ∃ s ∈ Finset.range (2 ^ N),
        popcountN s N = 0 ∧ pairTerr N Sm g w s < 100000 := by
      refine ⟨0, Finset.mem_range.mpr hpow, popcountN_zero_left N, ?_⟩
      rw [pairTerr_zero_state]
      norm_num
    obtain ⟨hp, hb, heq, _, _⟩ := exhSearch_min N 0 Sm g w hex
    have hm : (exhSearch N 0 Sm g w).2 = 0 := eq_zero_of_popcountN_eq_zero hb hp
    refine Prod.ext_iff.mpr ⟨?_, ?_⟩
    · rw [solve_qubo_exhaustive_fst]
      funext i
      rw [hm, bitOf_zero_left]
      simp
    · rw [solve_qubo_exhaustive_snd, heq, hm, pairTerr_zero_state, zero_add]
  · intro hlt
    have hex : ∃ s ∈ Finset.range (2 ^ N),
        popcountN s N = N ∧ pairTerr N Sm g w s < 100000 := by
      refine ⟨2 ^ N - 1, Finset.mem_range.mpr (by omega), ?_, hlt⟩
      exact popcountN_two_pow_sub_one (le_refl N)
    obtain ⟨hp, hb, heq, _, _⟩ := exhSearch_min N N Sm g w hex
    have hm : (exhSearch N N Sm g w).2 = 2 ^ N - 1 :=
      eq_two_pow_sub_one_of_popcountN hb hp
    refine Prod.ext_iff.mpr ⟨?_, ?_⟩
    · rw [solve_qubo_exhaustive_fst]
      funext i
      rw [hm, bitOf_two_pow_sub_one]
      by_cases hi : i < N
      · simp [hi]
      · simp [hi]
    · rw [solve_qubo_exhaustive_snd, heq, hm, pairTerr_all_ones]
      ring

/-- Witness for the amended C7 at `N = 1`, constant matrix `1`, unit weight
and `ε0 = 5`. -/
theorem solve_qubo_exhaustive_degenerate_witness :
    solve_qubo_exhaustive 0 (fun _ => (1 : ℚ)) (fun _ _ => (1 : ℚ)) (fun _ => 0) 5 1
        = ((fun _ => false), 5)
    ∧ pairTerr 1 (fun _ _ => (1 : ℚ)) (fun _ => 0) (fun _ => 1) (2 ^ 1 - 1) < 100000
    ∧ solve_qubo_exhaustive 1 (fun _ => (1 : ℚ)) (fun _ _ => (1 : ℚ)) (fun _ => 0) 5 1
        = ((fun i => decide (i < 1)),
           5 + ((∑ i ∈ Finset.range 1, bvec (fun _ _ => (1 : ℚ)) (fun _ => 1) (fun _ => 0) i)
             + ∑ i ∈ Finset.range 1, ∑ j ∈ Finset.Ico (i + 1) 1,
                 Amat (fun _ _ => (1 : ℚ)) (fun _ => 1) i j)) := by
  have hlt : pairTerr 1 (fun _ _ => (1 : ℚ)) (fun _ => 0) (fun _ => 1) (2 ^ 1 - 1)
      < 100000 := by
    norm_num [pairTerr, bvec, Amat, bitOf, Nat.shiftRight_eq_div_pow,
      Finset.sum_range_succ, Finset.sum_Ico_eq_sum_range, -Finset.sum_boole]
  exact ⟨(solve_qubo_exhaustive_degenerate 1 _ _ _ 5).1, hlt,
    (solve_qubo_exhaustive_degenerate 1 _ _ _ 5).2 hlt⟩

/-- Counterexample to C7 as stated: at `N = d = 1` with diagonal `200000`,
the all-true selection's error does not beat the sentinel, so the solver
returns the all-false selection with error `100000`, not the all-true
selection with error `ε0 + Σ b + Σ A = 200000`. -/
theorem degenerate_full_selection_counterexample :
    (solve_qubo_exhaustive 1 (fun _ => 1) (fun _ _ => (200000 : ℚ)) (fun _ => 0) 0 1).1 0
        = false
    ∧ (solve_qubo_exhaustive 1 (fun _ => 1) (fun _ _ => (200000 : ℚ)) (fun _ => 0) 0 1).2
        = 100000
    ∧ (0 : ℚ) + ((∑ i ∈ Finset.range 1, bvec (fun _ _ => (200000 : ℚ)) (fun _ => 1) (fun _ => 0) i)
        + ∑ i ∈ Finset.range 1, ∑ j ∈ Finset.Ico (i + 1) 1,
            Amat (fun _ _ => (200000 : ℚ)) (fun _ => 1) i j)
      = 200000
    ∧ (100000 : ℚ) ≠ 200000 := by
  have hr : List.range 2 = [0, 1] := rfl
  have hsearch : exhSearch 1 1 (fun _ _ => (200000 : ℚ)) (fun _ => 0) (fun _ => 1)
      = (100000, 0) := by
    norm_num [exhSearch, hr, List.foldl_cons, List.foldl_nil, exhStep, popcountN,
      pairTerr, bvec, Amat, bitOf, Nat.shiftRight_eq_div_pow,
      Finset.sum_range_succ, Finset.sum_Ico_eq_sum_range, Prod.ext_iff]
  refine ⟨?_, ?_, ?_, by norm_num⟩
  · rw [solve_qubo_exhaustive_fst, hsearch]
    simp [bitOf_zero_left]
  · rw [solve_qubo_exhaustive_snd, hsearch]
    norm_num
  · norm_num [bvec, Amat, Finset.sum_range_succ, Finset.sum_Ico_eq_sum_range]

/-! Characterization of the accumulation loops of `compute_tracking_error.py`. -/

/-- The `(terr, shots)` accumulation of `compute_mean_terr` computes the
valid-only weighted error sum next to the all-samples weight sum. -/
lemma meanFold_eq (N d : ℕ) (Sm : ℕ → ℕ → ℚ) (g : ℕ → ℚ)
    (svs : List (ℕ × List Char × ℚ)) (a : ℚ × ℚ) :
    svs.foldl (meanStep N d Sm g) a
      = (a.1 + ((svs.filter (fun sv => popcountN sv.1 N = d)).map
            (fun sv => stateTerr N Sm g sv.1 * sv.2.2)).sum,
         a.2 + (svs.map (fun sv => sv.2.2)).sum) := by
  induction svs generalizing a with
  | nil => simp
  | cons x tl ih =>
    rw [List.foldl_cons, ih, meanStep]
    by_cases hq : popcountN x.1 N = d
    · rw [if_pos hq, List.filter_cons_of_pos (by simpa using hq), List.map_cons,
        List.sum_cons, List.map_cons, List.sum_cons]
      refine Prod.ext_iff.mpr ⟨?_, ?_⟩
      · show a.1 + stateTerr N Sm g x.1 * x.2.2 + _ = _
        ring
      · show a.2 + x.2.2 + _ = _
        ring
    · rw [if_neg hq, List.filter_cons_of_neg (by simpa using hq), List.map_cons,
        List.sum_cons]
      refine Prod.ext_iff.mpr ⟨rfl, ?_⟩
      show a.2 + x.2.2 + _ = _
      ring

/-- Invariant of the scan of `find_min_terr`: the accumulator either never
changed, or it records a qualifying sample whose error undercut the starting
value; either way the error component never increases. -/
lemma findFold_spec (N d : ℕ) (Sm : ℕ → ℕ → ℚ) (g : ℕ → ℚ)
    (l : List (ℕ × List Char × ℚ)) (a : ℚ × List Char) :
    (l.foldl (findStep N d Sm g) a = a
      ∨ ∃ sv ∈ l, popcountN sv.1 N = d
          ∧ (l.foldl (findStep N d Sm g) a).1 = stateTerr N Sm g sv.1
          ∧ (l.foldl (findStep N d Sm g) a).2 = sv.2.1
          ∧ (l.foldl (findStep N d Sm g) a).1 < a.1)
    ∧ (l.foldl (findStep N d Sm g) a).1 ≤ a.1 := by
  induction l generalizing a with
  | nil => simp
  | cons x tl ih =>
    rw [List.foldl_cons, findStep]
    by_cases hq : popcountN x.1 N = d ∧ stateTerr N Sm g x.1 < a.1
    · rw [if_pos hq]
      obtain ⟨ihor, ihle⟩ := ih (stateTerr N Sm g x.1, x.2.1)
      constructor
      · rcases ihor with he | ⟨sv, hsv, hpv, h1, h2, h3⟩
        · refine Or.inr ⟨x, List.mem_cons_self x tl, hq.1, ?_, ?_, ?_⟩
          · rw [he]
          · rw [he]
          · rw [he]
            exact hq.2
        · exact Or.inr ⟨sv, List.mem_cons_of_mem x hsv, hpv, h1, h2,
            lt_trans h3 hq.2⟩
      · exact le_trans ihle (le_of_lt hq.2)
    · rw [if_neg hq]
      obtain ⟨ihor, ihle⟩ := ih a
      constructor
      · rcases ihor with he | ⟨sv, hsv, hpv, h1, h2, h3⟩
        · exact Or.inl he
        · exact Or.inr ⟨sv, List.mem_cons_of_mem x hsv, hpv, h1, h2, h3⟩
      · exact ihle

/-! Every character consumed by a successful `int(k, 2)` parse lies in the
grammar's alphabet `isPyIntChar`; contrapositively, a key holding any other
character makes the parse raise. -/

lemma parseDigitsCore_chars : ∀ (cs : List Char) (acc : ℕ) (b : Bool) (v : ℕ),
    parseDigitsCore acc b cs = some v → ∀ c ∈ cs, isPyIntChar c = true := by
  intro cs
  induction cs with
  | nil =>
    intro acc b v _ c hc
    simp at hc
  | cons x tl ih =>
    intro acc b v h c hc
    rw [parseDigitsCore] at h
    by_cases h0 : x = '0'
    · rw [if_pos h0] at h
      rcases List.mem_cons.mp hc with he | htl
      · subst he
        rw [h0]
        decide
      · exact ih _ _ _ h c htl
    · rw [if_neg h0] at h
      by_cases h1 : x = '1'
      · rw [if_pos h1] at h
        rcases List.mem_cons.mp hc with he | htl
        · subst he
          rw [h1]
          decide
        · exact ih _ _ _ h c htl
      · rw [if_neg h1] at h
        by_cases hu : x = '_'
        · rw [if_pos hu] at h
          cases b with
          | true => simp at h
          | false =>
            rw [if_neg Bool.false_ne_true] at h
            rcases List.mem_cons.mp hc with he | htl
            · subst he
              rw [hu]
              decide
            · exact ih _ _ _ h c htl
        · rw [if_neg hu] at h
          simp at h

lemma parseFirst_chars (cs : List Char) (v : ℕ) (h : parseFirst cs = some v) :
    ∀ c ∈ cs, isPyIntChar c = true := by
  cases cs with
  | nil =>
    intro c hc
    simp at hc
  | cons x rest =>
    simp only [parseFirst] at h
    intro c hc
    by_cases h0 : x = '0'
    · rw [if_pos h0] at h
      rcases List.mem_cons.mp hc with he | htl
      · subst he
        rw [h0]
        decide
      · exact parseDigitsCore_chars rest _ _ _ h c htl
    · rw [if_neg h0] at h
      by_cases h1 : x = '1'
      · rw [if_pos h1] at h
        rcases List.mem_cons.mp hc with he | htl
        · subst he
          rw [h1]
          decide
        · exact parseDigitsCore_chars rest _ _ _ h c htl
      · rw [if_neg h1] at h
        simp at h

lemma parseAfterPfx_chars (cs : List Char) (v : ℕ) (h : parseAfterPfx cs = some v) :
    ∀ c ∈ cs, isPyIntChar c = true := by
  cases cs with
  | nil =>
    intro c hc
    simp at hc
  | cons x rest =>
    simp only [parseAfterPfx] at h
    intro c hc
    by_cases hu : x = '_'
    · rw [if_pos hu] at h
      rcases List.mem_cons.mp hc with he | htl
      · subst he
        rw [hu]
        decide
      · exact parseFirst_chars rest v h c htl
    · rw [if_neg hu] at h
      exact parseFirst_chars (x :: rest) v h c hc

lemma parseBody_chars (cs : List Char) (v : ℕ) (h : parseBody cs = some v) :
    ∀ c ∈ cs, isPyIntChar c = true := by
  cases cs with
  | nil =>
    intro c hc
    simp at hc
  | cons c1 tl =>
    cases tl with
    | nil =>
      simp only [parseBody] at h
      exact parseFirst_chars _ v h
    | cons c2 rest =>
      simp only [parseBody] at h
      intro c hc
      by_cases hpre : c1 = '0' ∧ (c2 = 'b' ∨ c2 = 'B')
      · rw [if_pos hpre] at h
        rcases List.mem_cons.mp hc with he | h2
        · subst he
          rw [hpre.1]
          decide
        · rcases List.mem_cons.mp h2 with he2 | h3
          · subst he2
            rcases hpre.2 with hb | hb
            · rw [hb]
              decide
            · rw [hb]
              decide
          · exact parseAfterPfx_chars rest v h c h3
      · rw [if_neg hpre] at h
        exact parseFirst_chars _ v h c hc

lemma parseBin_eq (cs : List Char) :
    parseBin cs
      = match ((cs.dropWhile isPySpace).reverse.dropWhile isPySpace).reverse with
        | c :: rest => if c = '+' then parseBody rest else parseBody (c :: rest)
        | [] => parseBody [] := rfl

lemma parseBin_chars (cs : List Char) (v : ℕ) (h : parseBin cs = some v) :
    ∀ c ∈ cs, isPyIntChar c = true := by
  have hcs1 : ∀ x ∈ ((cs.dropWhile isPySpace).reverse.dropWhile isPySpace).reverse,
      isPyIntChar x = true := by
    rw [parseBin_eq] at h
    split at h
    · rename_i c0 rest heq
      rw [heq]
      intro x hx
      by_cases hplus : c0 = '+'
      · rw [if_pos hplus] at h
        rcases List.mem_cons.mp hx with he0 | hrest
        · subst he0
          rw [hplus]
          decide
        · exact parseBody_chars rest v h x hrest
      · rw [if_neg hplus] at h
        exact parseBody_chars _ v h x hx
    · rename_i heq
      rw [heq]
      intro x hx
      simp at hx
  intro c hc
  have hspace : ∀ x : Char, isPySpace x = true → isPyIntChar x = true := by
    intro x hx
    rw [isPyIntChar, hx]
    simp
  have hc2 : c ∈ cs.takeWhile isPySpace ∨ c ∈ cs.dropWhile isPySpace := by
    rw [← List.takeWhile_append_dropWhile isPySpace cs] at hc
    exact List.mem_append.mp hc
  rcases hc2 with hsp | hcd
  · exact hspace c (List.mem_takeWhile_imp hsp)
  · have hcd2 : c ∈ (cs.dropWhile isPySpace).reverse := List.mem_reverse.mpr hcd
    rw [← List.takeWhile_append_dropWhile isPySpace
      (cs.dropWhile isPySpace).reverse] at hcd2
    rcases List.mem_append.mp hcd2 with hsp2 | hce
    · exact hspace c (List.mem_takeWhile_imp hsp2)
    · exact hcs1 c (List.mem_reverse.mpr hce)

/-- Contrapositive used by the malformed-key claim: an ASCII character
outside the `int(k, 2)` alphabet anywhere in the key makes the decode
raise. -/
lemma parseBin_none_of_bad (cs : List Char)
    (hbad : ∃ c ∈ cs, isPyIntChar c = false) : parseBin cs = none := by
  cases hparse : parseBin cs with
  | none => rfl
  | some v =>
    obtain ⟨c, hc, hf⟩ := hbad
    have := parseBin_chars cs v hparse c hc
    rw [this] at hf
    exact absurd hf (by simp)

/-- Sanity checks of `parseBin` against Python's `int(k, 2)` on the inputs
that distinguish the grammar: grouping underscores, surrounding whitespace,
an explicit sign, the `0b`/`0B` prefix, and the ways each can be misplaced. -/
lemma parseBin_python_examples :
    parseBin ['1', '_', '0'] = some 2
    ∧ parseBin [' ', '1', '0', ' '] = some 2
    ∧ parseBin ['+', '1', '0'] = some 2
    ∧ parseBin ['0', 'b', '1', '0'] = some 2
    ∧ parseBin ['0', 'B', '1'] = some 1
    ∧ parseBin ['0', 'b', '_', '1', '0'] = some 2
    ∧ parseBin ['0'] = some 0
    ∧ parseBin [] = none
    ∧ parseBin ['0', 'b'] = none
    ∧ parseBin ['1', '_'] = none
    ∧ parseBin ['1', '_', '_', '0'] = none
    ∧ parseBin ['_', '1'] = none
    ∧ parseBin ['1', ' ', '0'] = none
    ∧ parseBin ['+', ' ', '1'] = none
    ∧ parseBin ['2'] = none := by
  decide

/-- If any key fails to decode, the whole dictionary scan raises. -/
lemma parseRes_none (res : List (List Char × ℚ))
    (hbad : ∃ kv ∈ res, parseBin kv.1 = none) : parseRes res = none := by
  induction res with
  | nil => simp at hbad
  | cons x tl ih =>
    rw [parseRes]
    rcases hbad with ⟨kv, hkv, hnone⟩
    rcases List.mem_cons.mp hkv with he | htl
    · subst he
      rw [hnone]
    · cases hx : parseBin x.1 with
      | none => rfl
      | some s =>
        rw [ih ⟨kv, htl, hnone⟩]

/-- Claim C10.  `find_min_terr` starts from the sentinel `1e5` with an empty
string and compares strictly: when no decoded popcount-`d` sample beats the
sentinel (in particular when none exists) it returns exactly
`(1e5, '')`, and conversely a returned non-empty selection is a
popcount-`d` sample whose `ε0`-excluded error is strictly below `1e5`. -/
theorem find_min_terr_sentinel (res : List (List Char × ℚ)) (N d : ℕ)
    (Sm : ℕ → ℕ → ℚ) (g : ℕ → ℚ) (ε0 : ℚ) (svs : List (ℕ × List Char × ℚ))
    (hp : parseRes res = some svs) :
    ((∀ sv ∈ svs, popcountN sv.1 N = d → ¬ stateTerr N Sm g sv.1 < 100000) →
      find_min_terr res N d Sm g ε0 = some (100000, []))
    ∧ (∀ t k, find_min_terr res N d Sm g ε0 = some (t, k) → k ≠ [] →
        t < 100000 ∧ ∃ sv ∈ svs, sv.2.1 = k ∧ popcountN sv.1 N = d
          ∧ stateTerr N Sm g sv.1 = t) := by
  have hout : find_min_terr res N d Sm g ε0
      = some (svs.foldl (findStep N d Sm g) (100000, [])) := by
    rw [find_min_terr, hp]
    rfl
  obtain ⟨hor, _⟩ := findFold_spec N d Sm g svs (100000, [])
  constructor
  · intro hno
    rcases hor with he | ⟨sv, hsv, hpv, h1, _, h3⟩
    · rw [hout, he]
    · rw [h1] at h3
      exact absurd h3 (hno sv hsv hpv)
  · intro t k heq hk
    rw [hout] at heq
    have hfold : svs.foldl (findStep N d Sm g) (100000, []) = (t, k) :=
      Option.some.inj heq
    rcases hor with he | ⟨sv, hsv, hpv, h1, h2, h3⟩
    · rw [he] at hfold
      have : k = [] := (Prod.ext_iff.mp hfold.symm).2
      exact absurd this hk
    · rw [hfold] at h1 h2 h3
      exact ⟨h3, sv, hsv, h2.symm, hpv, h1.symm⟩

/-- Witness for C10 on the distribution `{"01": 1}` with `N = 2`, `d = 1`,
identity correlations. -/
theorem find_min_terr_sentinel_witness :
    parseRes [(['0', '1'], 1)] = some [(1, ['0', '1'], 1)]
    ∧ (((∀ sv ∈ [(1, ['0', '1'], (1 : ℚ))], popcountN sv.1 2 = 1 →
          ¬ stateTerr 2 (fun i j => if i = j then (1 : ℚ) else 0) (fun _ => 0) sv.1
              < 100000) →
        find_min_terr [(['0', '1'], 1)] 2 1
            (fun i j => if i = j then (1 : ℚ) else 0) (fun _ => 0) 3
          = some (100000, []))
      ∧ (∀ t k, find_min_terr [(['0', '1'], 1)] 2 1
            (fun i j => if i = j then (1 : ℚ) else 0) (fun _ => 0) 3 = some (t, k) →
          k ≠ [] → t < 100000
            ∧ ∃ sv ∈ [(1, ['0', '1'], (1 : ℚ))], sv.2.1 = k ∧ popcountN sv.1 2 = 1
                ∧ stateTerr 2 (fun i j => if i = j then (1 : ℚ) else 0)
                    (fun _ => 0) sv.1 = t)) :=
  ⟨rfl, find_min_terr_sentinel [(['0', '1'], 1)] 2 1 _ _ 3 [(1, ['0', '1'], 1)] rfl⟩

/-- Amended claim C2.  `compute_mean_terr` excludes invalid-cardinality
samples from the numerator only: the denominator is the total weight of ALL
samples (`shots += v` runs before the cardinality check).  The result is
`(Σ_valid weight·error) / (Σ_all weight) + ε0`, failing only when the total
weight is zero. -/
theorem compute_mean_terr_total_weight (res : List (List Char × ℚ)) (N d : ℕ)
    (Sm : ℕ → ℕ → ℚ) (g : ℕ → ℚ) (ε0 : ℚ) (svs : List (ℕ × List Char × ℚ))
    (hp : parseRes res = some svs)
    (hW : (svs.map (fun sv => sv.2.2)).sum ≠ 0) :
    compute_mean_terr res N d Sm g ε0
      = some ((((svs.filter (fun sv => popcountN sv.1 N = d)).map
            (fun sv => stateTerr N Sm g sv.1 * sv.2.2)).sum)
          / ((svs.map (fun sv => sv.2.2)).sum) + ε0) := by
  simp only [compute_mean_terr, hp]
  rw [meanFold_eq]
  simp only [zero_add]
  rw [if_neg hW]

/-- Witness for the amended C2, on the spec's own example distribution
`{"101": 3, "011": 2, "110": 5}` with `N = 3`, `d = 2`. -/
theorem compute_mean_terr_total_weight_witness :
    parseRes [(['1', '0', '1'], 3), (['0', '1', '1'], 2), (['1', '1', '0'], 5)]
        = some [(5, ['1', '0', '1'], 3), (3, ['0', '1', '1'], 2), (6, ['1', '1', '0'], 5)]
    ∧ (([(5, ['1', '0', '1'], (3 : ℚ)), (3, ['0', '1', '1'], 2),
          (6, ['1', '1', '0'], 5)].map (fun sv => sv.2.2)).sum ≠ 0)
    ∧ compute_mean_terr
        [(['1', '0', '1'], 3), (['0', '1', '1'], 2), (['1', '1', '0'], 5)] 3 2
        (fun i j => if i = j then (1 : ℚ) else 0) (fun _ => 0) 4
      = some (((([(5, ['1', '0', '1'], (3 : ℚ)), (3, ['0', '1', '1'], 2),
            (6, ['1', '1', '0'], 5)].filter
              (fun sv => popcountN sv.1 3 = 2)).map
            (fun sv => stateTerr 3 (fun i j => if i = j then (1 : ℚ) else 0)
                (fun _ => 0) sv.1 * sv.2.2)).sum)
          / (([(5, ['1', '0', '1'], (3 : ℚ)), (3, ['0', '1', '1'], 2),
              (6, ['1', '1', '0'], 5)].map (fun sv => sv.2.2)).sum) + 4) := by
  have hW : (([(5, ['1', '0', '1'], (3 : ℚ)), (3, ['0', '1', '1'], 2),
      (6, ['1', '1', '0'], 5)].map (fun sv => sv.2.2)).sum ≠ 0) := by
    norm_num [List.sum_cons]
  exact ⟨rfl, hW, compute_mean_terr_total_weight _ 3 2 _ _ 4 _ rfl hW⟩

/-- Counterexample to C2 as stated: on `{"01": 1, "11": 1}` with `N = 2`,
`d = 1`, identity correlations and `ε0 = 0`, the source divides the valid
error mass `1` by the TOTAL weight `2`, while the spec formula (valid-only
denominator, `specExpectedError`) yields `1`. -/
theorem mean_terr_denominator_counterexample :
    compute_mean_terr [(['0', '1'], 1), (['1', '1'], 1)] 2 1
        (fun i j => if i = j then (1 : ℚ) else 0) (fun _ => 0) 0 = some (1 / 2)
    ∧ specExpectedError [(['0', '1'], 1), (['1', '1'], 1)] 2 1
        (fun i j => if i = j then (1 : ℚ) else 0) (fun _ => 0) 0 = some 1
    ∧ ((1 : ℚ) / 2 ≠ 1) := by
  have hp : parseRes [(['0', '1'], (1 : ℚ)), (['1', '1'], 1)]
      = some [(1, ['0', '1'], 1), (3, ['1', '1'], 1)] := rfl
  have e1 : stateTerr 2 (fun i j => if i = j then (1 : ℚ) else 0) (fun _ => 0) 1
      = 1 := by
    norm_num [stateTerr, bitOf, Nat.shiftRight_eq_div_pow,
      Finset.sum_range_succ, Finset.sum_Ico_eq_sum_range]
  refine ⟨?_, ?_, by norm_num⟩
  · simp only [compute_mean_terr, hp]
    rw [meanFold_eq]
    norm_num [List.filter, popcountN, bitOf, Nat.shiftRight_eq_div_pow,
      Finset.sum_range_succ, e1]
  · simp only [specExpectedError, hp]
    norm_num [List.filter, popcountN, bitOf, Nat.shiftRight_eq_div_pow,
      Finset.sum_range_succ, e1]

/-- Amended claim C4.  Neither scorer signals a typed `NoValidSamples`
failure.  When no decoded sample has popcount `d` (and the total weight is
non-zero), `compute_mean_terr` returns the numeric value `ε0` (the valid
error mass is `0`, the denominator is the total weight) and `find_min_terr`
returns the numeric sentinel pair `(1e5, '')`. -/
theorem no_valid_samples_behavior (res : List (List Char × ℚ)) (N d : ℕ)
    (Sm : ℕ → ℕ → ℚ) (g : ℕ → ℚ) (ε0 : ℚ) (svs : List (ℕ × List Char × ℚ))
    (hp : parseRes res = some svs)
    (hno : ∀ sv ∈ svs, popcountN sv.1 N ≠ d)
    (hW : (svs.map (fun sv => sv.2.2)).sum ≠ 0) :
    compute_mean_terr res N d Sm g ε0 = some ε0
    ∧ find_min_terr res N d Sm g ε0 = some (100000, []) := by
  constructor
  · have hfil : svs.filter (fun sv => popcountN sv.1 N = d) = [] :=
      List.filter_eq_nil_iff.mpr (fun sv hsv => by simpa using hno sv hsv)
    simp only [compute_mean_terr, hp]
    rw [meanFold_eq, hfil]
    simp only [List.map_nil, List.sum_nil, add_zero, zero_add]
    rw [if_neg hW, zero_div, zero_add]
  · have hout : find_min_terr res N d Sm g ε0
        = some (svs.foldl (findStep N d Sm g) (100000, [])) := by
      rw [find_min_terr, hp]
      rfl
    obtain ⟨hor, _⟩ := findFold_spec N d Sm g svs (100000, [])
    rcases hor with he | ⟨sv, hsv, hpv, _, _, _⟩
    · rw [hout, he]
    · exact absurd hpv (hno sv hsv)

/-- Witness for the amended C4 on `{"11": 1}` with `N = 2`, `d = 1`,
`ε0 = 5`: no sample has popcount 1, and the numeric results come back. -/
theorem no_valid_samples_behavior_witness :
    parseRes [(['1', '1'], 1)] = some [(3, ['1', '1'], 1)]
    ∧ (∀ sv ∈ [(3, ['1', '1'], (1 : ℚ))], popcountN sv.1 2 ≠ 1)
    ∧ (([(3, ['1', '1'], (1 : ℚ))].map (fun sv => sv.2.2)).sum ≠ 0)
    ∧ compute_mean_terr [(['1', '1'], 1)] 2 1
        (fun i j => if i = j then (1 : ℚ) else 0) (fun _ => 0) 5 = some 5
    ∧ find_min_terr [(['1', '1'], 1)] 2 1
        (fun i j => if i = j then (1 : ℚ) else 0) (fun _ => 0) 5
      = some (100000, []) := by
  have hW : (([(3, ['1', '1'], (1 : ℚ))].map (fun sv => sv.2.2)).sum ≠ 0) := by
    norm_num [List.sum_cons]
  obtain ⟨hmean, hfind⟩ := no_valid_samples_behavior [(['1', '1'], 1)] 2 1
    (fun i j => if i = j then (1 : ℚ) else 0) (fun _ => 0) 5
    [(3, ['1', '1'], 1)] rfl (by decide) hW
  exact ⟨rfl, by decide, hW, hmean, hfind⟩

/-- Counterexample to C4 as stated: on `{"111": 2}` with `N = 3`, `d = 1`,
no sample has the required cardinality, yet both functions return numeric
results (`ε0 = 7` and the sentinel pair) instead of failing. -/
theorem no_valid_samples_counterexample :
    compute_mean_terr [(['1', '1', '1'], 2)] 3 1
        (fun i j => if i = j then (1 : ℚ) else 0) (fun _ => 0) 7 = some 7
    ∧ find_min_terr [(['1', '1', '1'], 2)] 3 1
        (fun i j => if i = j then (1 : ℚ) else 0) (fun _ => 0) 7
      = some (100000, []) := by
  have hp : parseRes [(['1', '1', '1'], (2 : ℚ))] = some [(7, ['1', '1', '1'], 2)] := rfl
  constructor
  · simp only [compute_mean_terr, hp]
    rw [meanFold_eq]
    norm_num [List.filter, popcountN, bitOf, Nat.shiftRight_eq_div_pow,
      Finset.sum_range_succ]
  · rw [find_min_terr, hp]
    simp only [Option.map, List.foldl_cons, List.foldl_nil, findStep]
    rw [if_neg]
    intro hcontra
    exact absurd hcontra.1 (by decide)

/-- Amended claim C8.  No typed `MalformedSample` exists.  A key containing
an ASCII character outside the alphabet of Python's base-2 numeral grammar
(binary digits, grouping underscore, sign, the `0b`/`0B` prefix letters,
and the whitespace `int()` strips) makes both scorers fail — with the
untyped `ValueError` raised by `int(k, 2)`.  Keys that `int(k, 2)` does
accept are never rejected, whatever their length: wrong-length, underscored,
whitespace-padded, signed and prefixed keys are all scored through the
decoded value's low `N` bits (see the counterexample); a wrong-length key
fails only when `int` itself rejects it, as for the empty string. -/
theorem malformed_char_fails (res : List (List Char × ℚ)) (N d : ℕ)
    (Sm : ℕ → ℕ → ℚ) (g : ℕ → ℚ) (ε0 : ℚ)
    (hbad : ∃ kv ∈ res, ∃ c ∈ kv.1, c.toNat ≤ 127 ∧ isPyIntChar c = false) :
    compute_mean_terr res N d Sm g ε0 = none
    ∧ find_min_terr res N d Sm g ε0 = none := by
  have hnone : parseRes res = none := by
    obtain ⟨kv, hkv, c, hc, _, hf⟩ := hbad
    exact parseRes_none res ⟨kv, hkv, parseBin_none_of_bad kv.1 ⟨c, hc, hf⟩⟩
  constructor
  · simp only [compute_mean_terr, hnone]
  · rw [find_min_terr, hnone]
    rfl

/-- Witness for the amended C8 on the key `"2"`: the digit `2` is ASCII and
invalid everywhere in a base-2 numeral. -/
theorem malformed_char_fails_witness :
    (∃ kv ∈ [(['2'], (1 : ℚ))], ∃ c ∈ kv.1, c.toNat ≤ 127 ∧ isPyIntChar c = false)
    ∧ compute_mean_terr [(['2'], 1)] 1 0 (fun _ _ => (0 : ℚ)) (fun _ => 0) 0 = none
    ∧ find_min_terr [(['2'], 1)] 1 0 (fun _ _ => (0 : ℚ)) (fun _ => 0) 0 = none := by
  have hbad : ∃ kv ∈ [(['2'], (1 : ℚ))], ∃ c ∈ kv.1,
      c.toNat ≤ 127 ∧ isPyIntChar c = false := by
    refine ⟨(['2'], 1), List.mem_cons_self _ _, '2', List.mem_cons_self _ _, ?_, ?_⟩
    · decide
    · decide
  obtain ⟨h1, h2⟩ := malformed_char_fails [(['2'], 1)] 1 0
    (fun _ _ => (0 : ℚ)) (fun _ => 0) 0 hbad
  exact ⟨hbad, h1, h2⟩

/-- Counterexample to C8 as stated, refuting both halves.  Length half: the
key `"0101"` has length 4 ≠ N = 3, yet both scorers accept it (its value 5
has low-3-bits popcount 2 = d) and return numeric results.  Character half:
the key `"1_0"` contains `'_'`, a character other than `'0'`/`'1'`, yet
`int(k, 2)` accepts grouping underscores, so both scorers return numeric
results for it too — neither key fails with `MalformedSample`. -/
theorem malformed_key_counterexample :
    ((['0', '1', '0', '1'] : List Char).length ≠ 3)
    ∧ compute_mean_terr [(['0', '1', '0', '1'], 1)] 3 2
        (fun i j => if i = j then (1 : ℚ) else 0) (fun _ => 0) 0 = some 2
    ∧ find_min_terr [(['0', '1', '0', '1'], 1)] 3 2
        (fun i j => if i = j then (1 : ℚ) else 0) (fun _ => 0) 0
      = some (2, ['0', '1', '0', '1'])
    ∧ (∃ c ∈ (['1', '_', '0'] : List Char), c ≠ '0' ∧ c ≠ '1')
    ∧ compute_mean_terr [(['1', '_', '0'], 1)] 2 1
        (fun i j => if i = j then (1 : ℚ) else 0) (fun _ => 0) 0 = some 1
    ∧ find_min_terr [(['1', '_', '0'], 1)] 2 1
        (fun i j => if i = j then (1 : ℚ) else 0) (fun _ => 0) 0
      = some (1, ['1', '_', '0']) := by
  have hp : parseRes [(['0', '1', '0', '1'], (1 : ℚ))]
      = some [(5, ['0', '1', '0', '1'], 1)] := rfl
  have hpu : parseRes [(['1', '_', '0'], (1 : ℚ))]
      = some [(2, ['1', '_', '0'], 1)] := rfl
  have e5 : stateTerr 3 (fun i j => if i = j then (1 : ℚ) else 0) (fun _ => 0) 5
      = 2 := by
    norm_num [stateTerr, bitOf, Nat.shiftRight_eq_div_pow,
      Finset.sum_range_succ, Finset.sum_Ico_eq_sum_range]
  have e2 : stateTerr 2 (fun i j => if i = j then (1 : ℚ) else 0) (fun _ => 0) 2
      = 1 := by
    norm_num [stateTerr, bitOf, Nat.shiftRight_eq_div_pow,
      Finset.sum_range_succ, Finset.sum_Ico_eq_sum_range]
  refine ⟨by decide, ?_, ?_, by decide, ?_, ?_⟩
  · simp only [compute_mean_terr, hp]
    rw [meanFold_eq]
    norm_num [List.filter, popcountN, bitOf, Nat.shiftRight_eq_div_pow,
      Finset.sum_range_succ, e5]
  · rw [find_min_terr, hp]
    simp only [Option.map, List.foldl_cons, List.foldl_nil, findStep, e5]
    rw [if_pos]
    refine ⟨by decide, by norm_num⟩
  · simp only [compute_mean_terr, hpu]
    rw [meanFold_eq]
    norm_num [List.filter, popcountN, bitOf, Nat.shiftRight_eq_div_pow,
      Finset.sum_range_succ, e2]
  · rw [find_min_terr, hpu]
    simp only [Option.map, List.foldl_cons, List.foldl_nil, findStep, e2]
    rw [if_pos]
    refine ⟨by decide, by norm_num⟩

/-- Claim C3 evidence.  On the distribution `{"1": 1}` with `N = d = 1`,
`Σ = [[1]]`, `g = [0]` and `ε0 = 7`, `find_min_terr` reports the raw
`ε0`-excluded minimum `1`: the `ε0` parameter is accepted but never added
to the reported value (`return terr, stocks` on line 110 returns the bare
loop minimum), contradicting both the claim and the function's own
docstring convention (its sibling `compute_mean_terr` does add `ε0`). -/
theorem find_min_terr_drops_eps0 :
    find_min_terr [(['1'], 1)] 1 1 (fun _ _ => (1 : ℚ)) (fun _ => 0) 7
        = some (1, ['1'])
    ∧ (1 : ℚ) ≠ 1 + 7 := by
  have hp : parseRes [(['1'], (1 : ℚ))] = some [(1, ['1'], 1)] := rfl
  have e1 : stateTerr 1 (fun _ _ => (1 : ℚ)) (fun _ => 0) 1 = 1 := by
    norm_num [stateTerr, bitOf, Nat.shiftRight_eq_div_pow,
      Finset.sum_range_succ, Finset.sum_Ico_eq_sum_range]
  constructor
  · rw [find_min_terr, hp]
    simp only [Option.map, List.foldl_cons, List.foldl_nil, findStep, e1]
    rw [if_pos]
    refine ⟨by decide, by norm_num⟩
  · norm_num

/-- Amended claim C9.  With the update flags left at their default `False`,
`solve_qubo` and `minimize_w` leave the portfolio unchanged (and all
operations are pure functions of their inputs); with the flag `True`,
`solve_qubo` overwrites `pf.n` with the solver's selection and `minimize_w`
overwrites `portfolio.w` with the oracle's weights. -/
theorem update_flag_frame (pf : Portfolio) (d : ℕ) (rx : ℕ → ℚ) :
    (solve_qubo pf d false).2 = pf
    ∧ minimize_w pf rx false = pf
    ∧ (solve_qubo pf d true).2 = { pf with n := (solve_qubo pf d true).1.1 }
    ∧ minimize_w pf rx true = { pf with w := rx } :=
  ⟨rfl, rfl, rfl, rfl⟩

/-- Counterexample to C9 as stated: a one-stock portfolio with `n = [True]`,
solved with `d = 0` and `update_potfolio=True`, comes back with
`n = [False]` — the call is not side-effect-free on the portfolio. -/
theorem update_flag_mutates_counterexample :
    (solve_qubo ⟨1, fun i => decide (i = 0), fun _ => 1, fun _ _ => 1,
        fun _ => 0, 0⟩ 0 true).2.n 0 = false
    ∧ (Portfolio.mk 1 (fun i => decide (i = 0)) (fun _ => 1) (fun _ _ => 1)
        (fun _ => 0) 0).n 0 = true := by
  constructor
  · have hr1 : List.range 1 = [0] := rfl
    have hr2 : List.range 2 = [0, 1] := rfl
    norm_num [solve_qubo, solve_qubo_exhaustive, exhSearch, exhStep, popcountN,
      pairTerr, bvec, Amat, bitOf, Nat.shiftRight_eq_div_pow, hr1, hr2,
      List.filter, List.foldl, Finset.sum_range_succ, Finset.sum_Ico_eq_sum_range]
  · rfl

end IndexTracking
